import Mathlib

/-!
Verification of the URDF/Xacro viewer's two core utilities against their
source:

* the asset path matcher `findFileInMap` (client drag-and-drop helper), and
* the recursive Xacro include resolver `processIncludes` (backend server).

Documents, paths and targets are modelled as `List Char`; the browser file
map is an association list from path to an opaque handle; the server's
filesystem is an association list from absolute path to a file entry that is
either readable (with content) or present-but-unreadable (a read throws).
All definitions are translated from the JavaScript/TypeScript source; fuel
arguments make the recursions structural, with fuel chosen so that it never
runs out on terminating executions.
-/

set_option autoImplicit false

namespace URDF

/-- Character list of a string literal. -/
def str (s : String) : List Char := s.data

/-- JavaScript `\s` for the ASCII range (space, tab, newline, CR, vertical
tab, form feed); the Unicode space classes never occur in the inputs the
claims are about. -/
def isWsChar (c : Char) : Bool :=
  c == ' ' || c == '\t' || c == '\n' || c == '\r' || c == '\x0b' || c == '\x0c'

/-- Consume a literal: `some rest` when `lit` is a prefix of `s`. -/
def dropLit (lit s : List Char) : Option (List Char) :=
  if lit.isPrefixOf s then some (s.drop lit.length) else none

/-- `pat` occurs as a contiguous substring of `s` (JS `String.includes`). -/
def containsSub (pat : List Char) : List Char → Bool
  | [] => pat.isPrefixOf []
  | c :: rest => pat.isPrefixOf (c :: rest) || containsSub pat rest

/-- Index of the last occurrence of `pat` in `s`, if any. -/
def lastOcc (pat : List Char) : List Char → Option Nat
  | [] => if pat.isPrefixOf [] then some 0 else none
  | c :: rest =>
    match lastOcc pat rest with
    | some i => some (i + 1)
    | none => if pat.isPrefixOf (c :: rest) then some 0 else none

/-- Final path segment: JS `s.split('/').pop()` (empty when `s` ends in a
slash or is empty). -/
def lastSeg (s : List Char) : List Char :=
  (s.reverse.takeWhile (fun c => c != '/')).reverse

/-- Everything after the last `)` in `s`: JS `s.split(')').pop()`. -/
def afterLastParen (s : List Char) : List Char :=
  (s.reverse.takeWhile (fun c => c != ')')).reverse

/-! ### POSIX path model (Node `path` module, forward slashes) -/

/-- Split on `/`; like JS `split`, keeps empty segments. -/
def splitSlash : List Char → List (List Char)
  | [] => [[]]
  | c :: rest =>
    let r := splitSlash rest
    if c == '/' then [] :: r
    else
      match r with
      | [] => [[c]]
      | seg :: segs => (c :: seg) :: segs

/-- One step of Node path normalization over a reversed segment stack. -/
def normStep (isAbs : Bool) (acc : List (List Char)) (seg : List Char) :
    List (List Char) :=
  if seg.isEmpty || seg == ['.'] then acc
  else if seg == ['.', '.'] then
    match acc with
    | top :: rest => if top == ['.', '.'] then seg :: acc else rest
    | [] => if isAbs then [] else [seg]
  else seg :: acc

/-- Node `path.normalize` for POSIX paths (trailing-slash preservation
dropped; no call site in the server depends on it). -/
def normalizePath (p : List Char) : List Char :=
  let isAbs := p.head? == some '/'
  let body := List.intercalate ['/'] (((splitSlash p).foldl (normStep isAbs) []).reverse)
  if isAbs then '/' :: body
  else if body.isEmpty then ['.'] else body

/-- Node `path.resolve(wd, fn)` for POSIX paths, assuming `wd` is absolute
(true at every call site in the server, which derives it from a resolved
public directory). -/
def pathResolve (wd fn : List Char) : List Char :=
  if fn.head? == some '/' then normalizePath fn
  else normalizePath (wd ++ '/' :: fn)

/-- Node `path.join(a, b, c)` for POSIX paths. -/
def pathJoin3 (a b c : List Char) : List Char :=
  let joined := List.intercalate ['/'] (([a, b, c]).filter (fun s => !s.isEmpty))
  if joined.isEmpty then ['.'] else normalizePath joined

/-- Node `path.dirname` for POSIX paths. -/
def dirname (p : List Char) : List Char :=
  let r1 := p.reverse.dropWhile (fun c => c == '/')
  let r2 := r1.dropWhile (fun c => c != '/')
  let r3 := r2.dropWhile (fun c => c == '/')
  if r3.isEmpty then (if p.head? == some '/' then ['/'] else ['.']) else r3.reverse

/-! ### Asset path matcher (`findFileInMap`, client drag-and-drop helper) -/

/-- `targetPath.replace(/^(package:\/\/|file:\/\/)/, '')`: remove one leading
scheme, `package://` tried first. -/
def stripScheme (t : List Char) : List Char :=
  if (str "package://").isPrefixOf t then t.drop 10
  else if (str "file://").isPrefixOf t then t.drop 7
  else t

/-- The matcher, translated clause by clause from `findFileInMap`:
exact-key lookup, then one ordered scan testing the three scheme-stripped
comparisons per entry, then the filename-only fallback scan. -/
def findFileInMap {α : Type} (targetPath : List Char)
    (fileMap : List (List Char × α)) : Option α :=
  match fileMap.find? (fun e => e.1 == targetPath) with
  | some e => some e.2
  | none =>
    let normalizedTarget := stripScheme targetPath
    match fileMap.find? (fun e =>
        e.1 == normalizedTarget ||
        ('/' :: normalizedTarget).isSuffixOf e.1 ||
        ('/' :: e.1).isSuffixOf normalizedTarget) with
    | some e => some e.2
    | none =>
      let targetFileName := lastSeg normalizedTarget
      if targetFileName.isEmpty then none
      else
        match fileMap.find? (fun e =>
            ('/' :: targetFileName).isSuffixOf e.1 || e.1 == targetFileName) with
        | some e => some e.2
        | none => none

/-- Strategy 1 viewed on its own: the unmodified target as an exact key. -/
def strat1 {α : Type} (t : List Char) (fs : List (List Char × α)) : Option α :=
  (fs.find? (fun e => e.1 == t)).map Prod.snd

/-- The per-entry test of the scheme-stripped scan. -/
def strat2Pred (n key : List Char) : Bool :=
  key == n || ('/' :: n).isSuffixOf key || ('/' :: key).isSuffixOf n

/-- Strategy 2 viewed on its own: scheme-stripped scan. -/
def strat2 {α : Type} (t : List Char) (fs : List (List Char × α)) : Option α :=
  (fs.find? (fun e => strat2Pred (stripScheme t) e.1)).map Prod.snd

/-- Strategy 3 viewed on its own: filename-only fallback. -/
def strat3 {α : Type} (t : List Char) (fs : List (List Char × α)) : Option α :=
  let f := lastSeg (stripScheme t)
  if f.isEmpty then none
  else (fs.find? (fun e => ('/' :: f).isSuffixOf e.1 || e.1 == f)).map Prod.snd

/-- The union of all per-entry acceptance tests, used to state misses. -/
def anyStratPred (t key : List Char) : Bool :=
  key == t || strat2Pred (stripScheme t) key ||
    (let f := lastSeg (stripScheme t)
     !f.isEmpty && (('/' :: f).isSuffixOf key || key == f))

/-! ### Include resolver (`processIncludes`, backend server) -/

/-- A server-side file: readable with UTF-8 content, or present but
unreadable (`fs.readFileSync` throws on it). -/
inductive FileEntry
  | readable (content : List Char)
  | unreadable
  deriving DecidableEq

/-- The server filesystem: absolute POSIX path to file entry.
`fs.existsSync p` is key membership; `fs.readFileSync p` yields the
content of a readable entry and throws on an unreadable one. -/
abbrev Fs := List (List Char × FileEntry)

/-- Key lookup in the filesystem. -/
def lookupFs (fs : Fs) (p : List Char) : Option FileEntry :=
  (fs.find? (fun e => e.1 == p)).map (fun e => e.2)

/-- Outcome of a resolver run: a returned document, an exception thrown by
`fs.readFileSync`, or exhaustion of the fuel that stands in for the
unbounded JavaScript recursion. -/
inductive XRes
  | ok (doc : List Char)
  | errRead (p : List Char)
  | errFuel
  deriving DecidableEq

/-- Sequencing that mirrors JavaScript exception flow: an error short-circuits
everything after it. -/
def resBind (x : XRes) (f : List Char → XRes) : XRes :=
  match x with
  | XRes.ok d => f d
  | XRes.errRead p => XRes.errRead p
  | XRes.errFuel => XRes.errFuel

/-- The document an `XRes.ok` carries (and `[]` on errors). -/
def okDoc : XRes → List Char
  | XRes.ok d => d
  | _ => []

/-- Match of `/<xacro:include\s+filename=\"([^\"]+)\"\s*\/>/` at the start of
`s`: returns the matched span, the captured filename and the rest of the
input. Every quantifier is followed by a character its class excludes, so
maximal-munch scanning realizes the regex's backtracking semantics
exactly. -/
def matchAt (s : List Char) : Option (List Char × List Char × List Char) :=
  match dropLit (str "<xacro:include") s with
  | none => none
  | some r1 =>
    let w1 := r1.takeWhile isWsChar
    let r2 := r1.dropWhile isWsChar
    if w1.isEmpty then none
    else
      match dropLit (str "filename=\"") r2 with
      | none => none
      | some r3 =>
        let fn := r3.takeWhile (fun c => c != '"')
        let r4 := r3.dropWhile (fun c => c != '"')
        if fn.isEmpty then none
        else
          match r4 with
          | '"' :: r5 =>
            let w2 := r5.takeWhile isWsChar
            let r6 := r5.dropWhile isWsChar
            match dropLit (str "/>") r6 with
            | none => none
            | some r7 =>
              some (str "<xacro:include" ++ w1 ++ str "filename=\"" ++ fn ++
                      '"' :: (w2 ++ str "/>"), fn, r7)
          | _ => none

/-- `true` when the directive pattern matches somewhere in `s`. -/
def hasDirective : List Char → Bool
  | [] => false
  | c :: rest => (matchAt (c :: rest)).isSome || hasDirective rest

/-- Match of `/\$\(find\s+([^)]+)\)/` at the start of `s`, returning the
captured package name. The group class `[^)]` admits whitespace, so when
all characters before the `)` are whitespace the engine backtracks and the
group keeps the final whitespace character. -/
def macroAt (s : List Char) : Option (List Char) :=
  match dropLit (str "$(find") s with
  | none => none
  | some u =>
    let t := u.takeWhile (fun c => c != ')')
    if (u.drop t.length).head? != some ')' then none
    else
      let w := t.takeWhile isWsChar
      let g := t.drop w.length
      if w.isEmpty then none
      else if g.isEmpty then
        match t.reverse with
        | x :: _ :: _ => some [x]
        | _ => none
      else some g

/-- First match of the find-macro pattern anywhere in `s`
(JS `filename.match(...)`), returning the captured package name. -/
def macroSearch : List Char → Option (List Char)
  | [] => none
  | c :: rest =>
    match macroAt (c :: rest) with
    | some pkg => some pkg
    | none => macroSearch rest

/-- Target path of one include directive (the `filePath` computation in
`processIncludes`): the `$(find pkg)` branch joins against the fixed public
root; the literal branch resolves against the working directory. -/
def resolveTarget (filename wd publicDirPath : List Char) : List Char :=
  if containsSub (str "$(find ") filename then
    match macroSearch filename with
    | some pkgName => pathJoin3 publicDirPath pkgName (afterLastParen filename)
    | none => filename
  else pathResolve wd filename

/-- The placeholder comment substituted for a missing include target. -/
def placeholder (fn : List Char) : List Char :=
  str "<!-- File not found: " ++ fn ++ str " -->"

/-- Match of `/<\?xml.*\?>/` at the start of `s`: greedy `.*` cannot cross a
newline, so the match extends to the last `?>` on the current line. -/
def prologAt (s : List Char) : Option (List Char) :=
  match dropLit (str "<?xml") s with
  | none => none
  | some u =>
    let line := u.takeWhile (fun c => c != '\n')
    match lastOcc (str "?>") line with
    | none => none
    | some i => some (u.drop (i + 2))

/-- Match of `/<robot.*?>/` at the start of `s`: lazy `.*?` stops at the
first `>` after `<robot`, with no newline in between. -/
def openRobotAt (s : List Char) : Option (List Char) :=
  match dropLit (str "<robot") s with
  | none => none
  | some u =>
    match u.dropWhile (fun c => c != '>' && c != '\n') with
    | '>' :: r => some r
    | _ => none

/-- Match of `/<\/robot>/` at the start of `s`. -/
def closeRobotAt (s : List Char) : Option (List Char) :=
  dropLit (str "</robot>") s

/-- Global replace-with-empty scan: at each position either consume a match
of `m` (a matcher returning the rest of the input) or keep one character.
The fuel is the input length; every matcher used consumes at least one
character, so the fuel never runs out. -/
def scanStrip (m : List Char → Option (List Char)) : Nat → List Char → List Char
  | _, [] => []
  | 0, s => s
  | Nat.succ k, c :: rest =>
    match m (c :: rest) with
    | some r => scanStrip m k r
    | none => c :: scanStrip m k rest

/-- `s.replace(pat, '')` with a global regex, via `scanStrip`. -/
def runStrip (m : List Char → Option (List Char)) (s : List Char) : List Char :=
  scanStrip m s.length s

/-- The three global substitutions applied to every included file's content:
remove XML declarations, `<robot ...>` open tags and `</robot>` close
tags. -/
def stripWrapper (c : List Char) : List Char :=
  runStrip closeRobotAt (runStrip openRobotAt (runStrip prologAt c))

/-- `content.replace(includeRegex, f)`: scan left to right, replace each
directive match by `f` of its captured filename, and keep all other
characters; an exception thrown by `f` aborts the whole replace. The fuel
is the input length (each step consumes at least one character). -/
def replIncl (f : List Char → XRes) : Nat → List Char → XRes
  | _, [] => XRes.ok []
  | 0, s => XRes.ok s
  | Nat.succ k, c :: rest =>
    match matchAt (c :: rest) with
    | some (_, fn, r) =>
      resBind (f fn) (fun rep =>
        resBind (replIncl f k r) (fun t => XRes.ok (rep ++ t)))
    | none =>
      resBind (replIncl f k rest) (fun t => XRes.ok (c :: t))

/-- `replIncl` at its canonical fuel. -/
def replaceIncludes (f : List Char → XRes) (s : List Char) : XRes :=
  replIncl f s.length s

/-- The include resolver (`processIncludes(content, workingDir,
publicDirPath)`), with the filesystem explicit and a fuel bounding include
nesting depth; the JavaScript original recurses unboundedly, which the fuel
makes observable as `errFuel`. -/
def processIncludes : Nat → List Char → List Char → List Char → Fs → XRes
  | 0, _, _, _, _ => XRes.errFuel
  | Nat.succ n, content, wd, rd, fs =>
    replIncl (fun fn =>
      let p := resolveTarget fn wd rd
      match lookupFs fs p with
      | some (FileEntry.readable c2) =>
        processIncludes n (stripWrapper c2) (dirname p) rd fs
      | some FileEntry.unreadable => XRes.errRead p
      | none => XRes.ok (placeholder fn)) content.length content

/-- Resolution of a single directive with filename `fn` at nesting fuel `n`:
the body of the replace callback in `processIncludes`. -/
def dirFun (n : Nat) (wd rd : List Char) (fs : Fs) (fn : List Char) : XRes :=
  let p := resolveTarget fn wd rd
  match lookupFs fs p with
  | some (FileEntry.readable c2) =>
    processIncludes n (stripWrapper c2) (dirname p) rd fs
  | some FileEntry.unreadable => XRes.errRead p
  | none => XRes.ok (placeholder fn)

/-! ### Segment decomposition of a document -/

/-- A document decomposed by the directive scan: plain characters and
directive matches (with their exact matched span and captured filename). -/
inductive Seg
  | lit (c : Char)
  | dir (matched : List Char) (fn : List Char)
  deriving DecidableEq

/-- Directive-scan decomposition, fueled like `replIncl`; when fuel runs out
the remainder is kept as plain characters (unreachable at canonical fuel). -/
def scanSegsF : Nat → List Char → List Seg
  | _, [] => []
  | 0, s => s.map Seg.lit
  | Nat.succ k, c :: rest =>
    match matchAt (c :: rest) with
    | some (m, fn, r) => Seg.dir m fn :: scanSegsF k r
    | none => Seg.lit c :: scanSegsF k rest

/-- `scanSegsF` at its canonical fuel. -/
def scanSegs (s : List Char) : List Seg := scanSegsF s.length s

/-- Reassemble a decomposition into the original text. -/
def joinSegs (segs : List Seg) : List Char :=
  segs.foldr (fun sg acc =>
    match sg with
    | Seg.lit c => c :: acc
    | Seg.dir m _ => m ++ acc) []

/-- Run a directive resolver over a decomposition, in document order, with
the same exception flow as `replaceIncludes`. -/
def renderSegs (f : List Char → XRes) : List Seg → XRes
  | [] => XRes.ok []
  | Seg.lit c :: rest =>
    resBind (renderSegs f rest) (fun t => XRes.ok (c :: t))
  | Seg.dir _ fn :: rest =>
    resBind (f fn) (fun rep =>
      resBind (renderSegs f rest) (fun t => XRes.ok (rep ++ t)))

/-! ### Basic lemmas about the scanners -/

theorem dropLit_eq {lit s r : List Char} (h : dropLit lit s = some r) :
    s = lit ++ r := by
  unfold dropLit at h
  split at h
  · rename_i hp
    obtain ⟨t, ht⟩ := List.isPrefixOf_iff_prefix.mp hp
    cases h
    rw [← ht, List.drop_left]
  · exact absurd h (by simp)

theorem dropLit_append (lit u : List Char) : dropLit lit (lit ++ u) = some u := by
  unfold dropLit
  rw [if_pos (List.isPrefixOf_iff_prefix.mpr (List.prefix_append lit u)), List.drop_left]

theorem takeWhile_pass_stop {p : Char → Bool} {a : List Char} {x : Char}
    (l : List Char) (ha : ∀ c ∈ a, p c = true) (hx : p x = false) :
    (a ++ x :: l).takeWhile p = a := by
  induction a with
  | nil => simp [List.takeWhile_cons, hx]
  | cons c rest ih =>
    have hc : p c = true := ha c (by simp)
    simp only [List.cons_append, List.takeWhile_cons, hc, if_true]
    rw [ih (fun d hd => ha d (by simp [hd]))]

theorem dropWhile_pass_stop {p : Char → Bool} {a : List Char} {x : Char}
    (l : List Char) (ha : ∀ c ∈ a, p c = true) (hx : p x = false) :
    (a ++ x :: l).dropWhile p = x :: l := by
  induction a with
  | nil => simp [List.dropWhile_cons, hx]
  | cons c rest ih =>
    have hc : p c = true := ha c (by simp)
    simp only [List.cons_append, List.dropWhile_cons, hc, if_true]
    exact ih (fun d hd => ha d (by simp [hd]))

theorem matchAt_eq {s m fn r : List Char}
    (h : matchAt s = some (m, fn, r)) : s = m ++ r ∧ m ≠ [] := by
  unfold matchAt at h
  split at h
  · exact absurd h (by simp)
  · rename_i r1 h1
    simp only at h
    split at h
    · exact absurd h (by simp)
    · rename_i hw1
      split at h
      · exact absurd h (by simp)
      · rename_i r3 h3
        split at h
        · exact absurd h (by simp)
        · rename_i hfn
          split at h
          · rename_i r5 h5
            split at h
            · exact absurd h (by simp)
            · rename_i r7 h7
              injection h with hp
              injection hp with h1' h2'
              injection h2' with h2' h3'
              subst h1' h2' h3'
              constructor
              · have e1 := dropLit_eq h1
                have e3 := dropLit_eq h3
                have e7 := dropLit_eq h7
                have e2 := List.takeWhile_append_dropWhile isWsChar r1
                have e4 := List.takeWhile_append_dropWhile (fun c => c != '"') r3
                have e6 := List.takeWhile_append_dropWhile isWsChar r5
                calc s = str "<xacro:include" ++ r1 := e1
                  _ = str "<xacro:include" ++
                        (List.takeWhile isWsChar r1 ++ List.dropWhile isWsChar r1) := by
                        rw [e2]
                  _ = str "<xacro:include" ++
                        (List.takeWhile isWsChar r1 ++ (str "filename=\"" ++ r3)) := by
                        rw [← e3]
                  _ = str "<xacro:include" ++
                        (List.takeWhile isWsChar r1 ++ (str "filename=\"" ++
                          (List.takeWhile (fun c => c != '"') r3 ++
                           List.dropWhile (fun c => c != '"') r3))) := by rw [e4]
                  _ = str "<xacro:include" ++
                        (List.takeWhile isWsChar r1 ++ (str "filename=\"" ++
                          (List.takeWhile (fun c => c != '"') r3 ++ ('"' :: r5)))) := by
                        rw [h5]
                  _ = str "<xacro:include" ++
                        (List.takeWhile isWsChar r1 ++ (str "filename=\"" ++
                          (List.takeWhile (fun c => c != '"') r3 ++ ('"' ::
                            (List.takeWhile isWsChar r5 ++ List.dropWhile isWsChar r5))))) := by
                        rw [e6]
                  _ = str "<xacro:include" ++
                        (List.takeWhile isWsChar r1 ++ (str "filename=\"" ++
                          (List.takeWhile (fun c => c != '"') r3 ++ ('"' ::
                            (List.takeWhile isWsChar r5 ++ (str "/>" ++ r7)))))) := by
                        rw [← e7]
                  _ = str "<xacro:include" ++ List.takeWhile isWsChar r1 ++
                        str "filename=\"" ++ List.takeWhile (fun c => c != '"') r3 ++
                        '"' :: (List.takeWhile isWsChar r5 ++ str "/>") ++ r7 := by
                        simp [List.append_assoc]
              · intro hc
                rw [List.append_eq_nil] at hc
                have : str "<xacro:include" = [] := by
                  have := hc.1
                  rw [List.append_eq_nil] at this
                  have := this.1
                  rw [List.append_eq_nil] at this
                  have := this.1
                  rw [List.append_eq_nil] at this
                  exact this.1
                exact absurd this (by decide)
          · exact absurd h (by simp)

theorem matchAt_lt {s m fn r : List Char}
    (h : matchAt s = some (m, fn, r)) : r.length < s.length := by
  obtain ⟨he, hm⟩ := matchAt_eq h
  rw [he, List.length_append]
  have : 0 < m.length := List.length_pos.mpr hm
  omega

/-! ### The replace scan: fuel irrelevance and equations -/

theorem replIncl_nil (f : List Char → XRes) (k : Nat) :
    replIncl f k [] = XRes.ok [] := by
  cases k <;> rfl

theorem replIncl_cons_some {c : Char} {rest m fn r : List Char}
    (f : List Char → XRes) (k : Nat)
    (hm : matchAt (c :: rest) = some (m, fn, r)) :
    replIncl f (k + 1) (c :: rest) =
      resBind (f fn) (fun rep =>
        resBind (replIncl f k r) (fun t => XRes.ok (rep ++ t))) := by
  have h0 : replIncl f (k + 1) (c :: rest) =
      (match matchAt (c :: rest) with
        | some (_, fn, r) =>
          resBind (f fn) (fun rep =>
            resBind (replIncl f k r) (fun t => XRes.ok (rep ++ t)))
        | none =>
          resBind (replIncl f k rest) (fun t => XRes.ok (c :: t))) := rfl
  rw [h0, hm]

theorem replIncl_cons_none {c : Char} {rest : List Char}
    (f : List Char → XRes) (k : Nat) (hm : matchAt (c :: rest) = none) :
    replIncl f (k + 1) (c :: rest) =
      resBind (replIncl f k rest) (fun t => XRes.ok (c :: t)) := by
  have h0 : replIncl f (k + 1) (c :: rest) =
      (match matchAt (c :: rest) with
        | some (_, fn, r) =>
          resBind (f fn) (fun rep =>
            resBind (replIncl f k r) (fun t => XRes.ok (rep ++ t)))
        | none =>
          resBind (replIncl f k rest) (fun t => XRes.ok (c :: t))) := rfl
  rw [h0, hm]

theorem replIncl_fuel (f : List Char → XRes) :
    ∀ (k j : Nat) (s : List Char), s.length ≤ k → s.length ≤ j →
      replIncl f k s = replIncl f j s := by
  intro k
  induction k with
  | zero =>
    intro j s hk _
    have : s = [] := List.length_eq_zero.mp (Nat.le_zero.mp hk)
    subst this
    rw [replIncl_nil, replIncl_nil]
  | succ k ih =>
    intro j s hk hj
    cases s with
    | nil => rw [replIncl_nil, replIncl_nil]
    | cons c rest =>
      cases j with
      | zero => exact absurd hj (by simp)
      | succ j =>
        cases hm : matchAt (c :: rest) with
        | some v =>
          obtain ⟨m, fn, r⟩ := v
          have hr := matchAt_lt hm
          simp only [List.length_cons] at hk hj hr
          rw [replIncl_cons_some f k hm, replIncl_cons_some f j hm,
            ih j r (by omega) (by omega)]
        | none =>
          simp only [List.length_cons] at hk hj
          rw [replIncl_cons_none f k hm, replIncl_cons_none f j hm,
            ih j rest (by omega) (by omega)]

theorem replaceIncludes_none {f : List Char → XRes} {c : Char} {rest : List Char}
    (hm : matchAt (c :: rest) = none) :
    replaceIncludes f (c :: rest) =
      resBind (replaceIncludes f rest) (fun t => XRes.ok (c :: t)) := by
  show replIncl f (c :: rest).length (c :: rest) = _
  simp only [List.length_cons]
  rw [replIncl_cons_none f rest.length hm]
  rfl

theorem replaceIncludes_match {f : List Char → XRes} {s m fn r : List Char}
    (hm : matchAt s = some (m, fn, r)) :
    replaceIncludes f s =
      resBind (f fn) (fun rep =>
        resBind (replaceIncludes f r) (fun t => XRes.ok (rep ++ t))) := by
  cases s with
  | nil =>
    exfalso
    have := matchAt_lt hm
    simp at this
  | cons c rest =>
    show replIncl f (c :: rest).length (c :: rest) = _
    simp only [List.length_cons]
    rw [replIncl_cons_some f rest.length hm]
    have hr := matchAt_lt hm
    simp only [List.length_cons] at hr
    rw [replIncl_fuel f rest.length r.length r (by omega) (by omega)]
    rfl

theorem replaceIncludes_noDirective {f : List Char → XRes} :
    ∀ {s : List Char}, hasDirective s = false → replaceIncludes f s = XRes.ok s := by
  intro s
  induction s with
  | nil => intro _; rfl
  | cons c rest ih =>
    intro h
    unfold hasDirective at h
    rw [Bool.or_eq_false_iff] at h
    have hm : matchAt (c :: rest) = none := by
      cases hmm : matchAt (c :: rest) with
      | none => rfl
      | some v => rw [hmm] at h; simp at h
    rw [replaceIncludes_none hm, ih h.2]
    rfl

theorem processIncludes_succ (n : Nat) (content wd rd : List Char) (fs : Fs) :
    processIncludes (n + 1) content wd rd fs =
      replaceIncludes (dirFun n wd rd fs) content := rfl

/-! ### Decomposition lemmas -/

theorem scanSegsF_cons_some {c : Char} {rest m fn r : List Char} (k : Nat)
    (hm : matchAt (c :: rest) = some (m, fn, r)) :
    scanSegsF (k + 1) (c :: rest) = Seg.dir m fn :: scanSegsF k r := by
  have h0 : scanSegsF (k + 1) (c :: rest) =
      (match matchAt (c :: rest) with
        | some (m, fn, r) => Seg.dir m fn :: scanSegsF k r
        | none => Seg.lit c :: scanSegsF k rest) := rfl
  rw [h0, hm]

theorem scanSegsF_cons_none {c : Char} {rest : List Char} (k : Nat)
    (hm : matchAt (c :: rest) = none) :
    scanSegsF (k + 1) (c :: rest) = Seg.lit c :: scanSegsF k rest := by
  have h0 : scanSegsF (k + 1) (c :: rest) =
      (match matchAt (c :: rest) with
        | some (m, fn, r) => Seg.dir m fn :: scanSegsF k r
        | none => Seg.lit c :: scanSegsF k rest) := rfl
  rw [h0, hm]

theorem scanSegsF_nil (k : Nat) : scanSegsF k [] = [] := by
  cases k <;> rfl

theorem joinSegs_map_lit (s : List Char) : joinSegs (s.map Seg.lit) = s := by
  induction s with
  | nil => rfl
  | cons c rest ih =>
    show c :: joinSegs (rest.map Seg.lit) = c :: rest
    rw [ih]

/-- Reassembling the decomposition recovers the document, at any fuel. -/
theorem joinSegs_scanSegsF : ∀ (k : Nat) (s : List Char),
    joinSegs (scanSegsF k s) = s := by
  intro k
  induction k with
  | zero =>
    intro s
    cases s with
    | nil => rfl
    | cons c rest => exact joinSegs_map_lit (c :: rest)
  | succ k ih =>
    intro s
    cases s with
    | nil => rfl
    | cons c rest =>
      cases hm : matchAt (c :: rest) with
      | some v =>
        obtain ⟨m, fn, r⟩ := v
        rw [scanSegsF_cons_some k hm]
        show m ++ joinSegs (scanSegsF k r) = c :: rest
        rw [ih r]
        exact (matchAt_eq hm).1.symm
      | none =>
        rw [scanSegsF_cons_none k hm]
        show c :: joinSegs (scanSegsF k rest) = c :: rest
        rw [ih rest]

theorem joinSegs_scanSegs (s : List Char) : joinSegs (scanSegs s) = s :=
  joinSegs_scanSegsF s.length s

/-- The replace scan agrees with rendering the decomposition. -/
theorem replIncl_renderSegs (f : List Char → XRes) :
    ∀ (k : Nat) (s : List Char), s.length ≤ k →
      replIncl f k s = renderSegs f (scanSegsF k s) := by
  intro k
  induction k with
  | zero =>
    intro s hk
    have : s = [] := List.length_eq_zero.mp (Nat.le_zero.mp hk)
    subst this
    rfl
  | succ k ih =>
    intro s hk
    cases s with
    | nil => rfl
    | cons c rest =>
      simp only [List.length_cons] at hk
      cases hm : matchAt (c :: rest) with
      | some v =>
        obtain ⟨m, fn, r⟩ := v
        have hr := matchAt_lt hm
        simp only [List.length_cons] at hr
        rw [replIncl_cons_some f k hm, scanSegsF_cons_some k hm]
        show _ = resBind (f fn) (fun rep =>
          resBind (renderSegs f (scanSegsF k r)) (fun t => XRes.ok (rep ++ t)))
        rw [ih r (by omega)]
      | none =>
        rw [replIncl_cons_none f k hm, scanSegsF_cons_none k hm]
        show _ = resBind (renderSegs f (scanSegsF k rest)) (fun t => XRes.ok (c :: t))
        rw [ih rest (by omega)]

theorem replaceIncludes_renderSegs (f : List Char → XRes) (s : List Char) :
    replaceIncludes f s = renderSegs f (scanSegs s) :=
  replIncl_renderSegs f s.length s (Nat.le_refl _)

/-- A successful render is the concatenation of the per-segment outputs:
characters outside directive spans verbatim, directive spans through `f`. -/
theorem renderSegs_ok {f : List Char → XRes} :
    ∀ {segs : List Seg} {out : List Char}, renderSegs f segs = XRes.ok out →
      out = (segs.map (fun sg =>
        match sg with
        | Seg.lit c => [c]
        | Seg.dir _ fn => okDoc (f fn))).flatten := by
  intro segs
  induction segs with
  | nil =>
    intro out h
    injection h with h
    subst h
    rfl
  | cons sg rest ih =>
    intro out h
    cases sg with
    | lit c =>
      show out = [c] ++ _
      cases hr : renderSegs f rest with
      | ok t =>
        rw [show renderSegs f (Seg.lit c :: rest) =
              resBind (renderSegs f rest) (fun t => XRes.ok (c :: t)) from rfl,
          hr] at h
        injection h with h
        subst h
        rw [← ih hr]
        rfl
      | errRead p =>
        rw [show renderSegs f (Seg.lit c :: rest) =
              resBind (renderSegs f rest) (fun t => XRes.ok (c :: t)) from rfl,
          hr] at h
        exact absurd h (by simp [resBind])
      | errFuel =>
        rw [show renderSegs f (Seg.lit c :: rest) =
              resBind (renderSegs f rest) (fun t => XRes.ok (c :: t)) from rfl,
          hr] at h
        exact absurd h (by simp [resBind])
    | dir m fn =>
      have h0 : renderSegs f (Seg.dir m fn :: rest) =
          resBind (f fn) (fun rep =>
            resBind (renderSegs f rest) (fun t => XRes.ok (rep ++ t))) := rfl
      rw [h0] at h
      cases hf : f fn with
      | ok rep =>
        rw [hf] at h
        cases hr : renderSegs f rest with
        | ok t =>
          rw [show resBind (XRes.ok rep) (fun rep =>
                resBind (renderSegs f rest) (fun t => XRes.ok (rep ++ t))) =
              resBind (renderSegs f rest) (fun t => XRes.ok (rep ++ t)) from rfl,
            hr] at h
          injection h with h
          subst h
          show rep ++ t = okDoc (f fn) ++ _
          rw [hf, ← ih hr]
          rfl
        | errRead p =>
          rw [show resBind (XRes.ok rep) (fun rep =>
                resBind (renderSegs f rest) (fun t => XRes.ok (rep ++ t))) =
              resBind (renderSegs f rest) (fun t => XRes.ok (rep ++ t)) from rfl,
            hr] at h
          exact absurd h (by simp [resBind])
        | errFuel =>
          rw [show resBind (XRes.ok rep) (fun rep =>
                resBind (renderSegs f rest) (fun t => XRes.ok (rep ++ t))) =
              resBind (renderSegs f rest) (fun t => XRes.ok (rep ++ t)) from rfl,
            hr] at h
          exact absurd h (by simp [resBind])
      | errRead p =>
        rw [hf] at h
        exact absurd h (by simp [resBind])
      | errFuel =>
        rw [hf] at h
        exact absurd h (by simp [resBind])

/-! ### Error soundness -/

/-- Every read error produced by the replace scan comes from the directive
resolver `f`. -/
theorem replIncl_errRead {f : List Char → XRes} {p : List Char} :
    ∀ (k : Nat) (s : List Char), replIncl f k s = XRes.errRead p →
      ∃ fn, f fn = XRes.errRead p := by
  intro k
  induction k with
  | zero =>
    intro s h
    cases s <;> exact absurd h (by simp [replIncl])
  | succ k ih =>
    intro s h
    cases s with
    | nil => exact absurd h (by simp [replIncl_nil])
    | cons c rest =>
      cases hm : matchAt (c :: rest) with
      | some v =>
        obtain ⟨m, fn, r⟩ := v
        rw [replIncl_cons_some f k hm] at h
        cases hf : f fn with
        | ok rep =>
          rw [hf] at h
          cases hr : replIncl f k r with
          | ok t =>
            rw [show resBind (XRes.ok rep) (fun rep =>
                resBind (replIncl f k r) (fun t => XRes.ok (rep ++ t))) =
              resBind (replIncl f k r) (fun t => XRes.ok (rep ++ t)) from rfl,
              hr] at h
            exact absurd h (by simp [resBind])
          | errRead q =>
            rw [show resBind (XRes.ok rep) (fun rep =>
                resBind (replIncl f k r) (fun t => XRes.ok (rep ++ t))) =
              resBind (replIncl f k r) (fun t => XRes.ok (rep ++ t)) from rfl,
              hr] at h
            simp [resBind] at h
            subst h
            exact ih r hr
          | errFuel =>
            rw [show resBind (XRes.ok rep) (fun rep =>
                resBind (replIncl f k r) (fun t => XRes.ok (rep ++ t))) =
              resBind (replIncl f k r) (fun t => XRes.ok (rep ++ t)) from rfl,
              hr] at h
            exact absurd h (by simp [resBind])
        | errRead q =>
          rw [hf] at h
          simp [resBind] at h
          subst h
          exact ⟨fn, hf⟩
        | errFuel =>
          rw [hf] at h
          exact absurd h (by simp [resBind])
      | none =>
        rw [replIncl_cons_none f k hm] at h
        cases hr : replIncl f k rest with
        | ok t => rw [hr] at h; exact absurd h (by simp [resBind])
        | errRead q =>
          rw [hr] at h
          simp [resBind] at h
          subst h
          exact ih rest hr
        | errFuel => rw [hr] at h; exact absurd h (by simp [resBind])

/-- A read error escaping the resolver always names a file that exists but
is unreadable. -/
theorem processIncludes_errRead {p : List Char} :
    ∀ (n : Nat) (content wd rd : List Char) (fs : Fs),
      processIncludes n content wd rd fs = XRes.errRead p →
      lookupFs fs p = some FileEntry.unreadable := by
  intro n
  induction n with
  | zero =>
    intro content wd rd fs h
    exact absurd h (by simp [processIncludes])
  | succ n ih =>
    intro content wd rd fs h
    rw [processIncludes_succ] at h
    obtain ⟨fn, hfn⟩ := replIncl_errRead content.length content h
    have hd : dirFun n wd rd fs fn =
        (match lookupFs fs (resolveTarget fn wd rd) with
          | some (FileEntry.readable c2) =>
            processIncludes n (stripWrapper c2)
              (dirname (resolveTarget fn wd rd)) rd fs
          | some FileEntry.unreadable => XRes.errRead (resolveTarget fn wd rd)
          | none => XRes.ok (placeholder fn)) := rfl
    rw [hd] at hfn
    cases hl : lookupFs fs (resolveTarget fn wd rd) with
    | none =>
      rw [hl] at hfn
      have hfn2 : XRes.ok (placeholder fn) = XRes.errRead p := hfn
      exact absurd hfn2 (by simp)
    | some e =>
      cases e with
      | readable c2 =>
        rw [hl] at hfn
        have hfn2 : processIncludes n (stripWrapper c2)
            (dirname (resolveTarget fn wd rd)) rd fs = XRes.errRead p := hfn
        exact ih _ _ _ _ hfn2
      | unreadable =>
        rw [hl] at hfn
        have hfn2 : XRes.errRead (resolveTarget fn wd rd) = XRes.errRead p := hfn
        injection hfn2 with hq
        rw [← hq]
        exact hl

/-! ### Strip-scan lemmas -/

theorem scanStrip_nil (m : List Char → Option (List Char)) (k : Nat) :
    scanStrip m k [] = [] := by
  cases k <;> rfl

theorem scanStrip_cons_some {m : List Char → Option (List Char)} {c : Char}
    {rest r : List Char} (k : Nat) (hm : m (c :: rest) = some r) :
    scanStrip m (k + 1) (c :: rest) = scanStrip m k r := by
  have h0 : scanStrip m (k + 1) (c :: rest) =
      (match m (c :: rest) with
        | some r => scanStrip m k r
        | none => c :: scanStrip m k rest) := rfl
  rw [h0, hm]

theorem scanStrip_cons_none {m : List Char → Option (List Char)} {c : Char}
    {rest : List Char} (k : Nat) (hm : m (c :: rest) = none) :
    scanStrip m (k + 1) (c :: rest) = c :: scanStrip m k rest := by
  have h0 : scanStrip m (k + 1) (c :: rest) =
      (match m (c :: rest) with
        | some r => scanStrip m k r
        | none => c :: scanStrip m k rest) := rfl
  rw [h0, hm]

theorem scanStrip_fuel {m : List Char → Option (List Char)}
    (hc : ∀ s r, m s = some r → r.length < s.length) :
    ∀ (k j : Nat) (s : List Char), s.length ≤ k → s.length ≤ j →
      scanStrip m k s = scanStrip m j s := by
  intro k
  induction k with
  | zero =>
    intro j s hk _
    have : s = [] := List.length_eq_zero.mp (Nat.le_zero.mp hk)
    subst this
    rw [scanStrip_nil, scanStrip_nil]
  | succ k ih =>
    intro j s hk hj
    cases s with
    | nil => rw [scanStrip_nil, scanStrip_nil]
    | cons c rest =>
      cases j with
      | zero => exact absurd hj (by simp)
      | succ j =>
        simp only [List.length_cons] at hk hj
        cases hm : m (c :: rest) with
        | some r =>
          have hr := hc _ _ hm
          simp only [List.length_cons] at hr
          rw [scanStrip_cons_some k hm, scanStrip_cons_some j hm,
            ih j r (by omega) (by omega)]
        | none =>
          rw [scanStrip_cons_none k hm, scanStrip_cons_none j hm,
            ih j rest (by omega) (by omega)]

theorem runStrip_match {m : List Char → Option (List Char)} {s r : List Char}
    (hc : ∀ s r, m s = some r → r.length < s.length) (hm : m s = some r) :
    runStrip m s = runStrip m r := by
  cases s with
  | nil =>
    exfalso
    have := hc _ _ hm
    simp at this
  | cons c rest =>
    show scanStrip m (c :: rest).length (c :: rest) = _
    simp only [List.length_cons]
    rw [scanStrip_cons_some rest.length hm]
    have hr := hc _ _ hm
    simp only [List.length_cons] at hr
    exact scanStrip_fuel hc rest.length r.length r (by omega) (by omega)

theorem runStrip_cons_none {m : List Char → Option (List Char)} {c : Char}
    {rest : List Char} (hm : m (c :: rest) = none) :
    runStrip m (c :: rest) = c :: runStrip m rest := by
  show scanStrip m (c :: rest).length (c :: rest) = _
  simp only [List.length_cons]
  rw [scanStrip_cons_none rest.length hm]
  rfl

theorem runStrip_noMatch {m : List Char → Option (List Char)} :
    ∀ {s : List Char}, (∀ t, t <:+ s → m t = none) → runStrip m s = s := by
  have key : ∀ (k : Nat) (s : List Char), (∀ t, t <:+ s → m t = none) →
      scanStrip m k s = s := by
    intro k
    induction k with
    | zero =>
      intro s _
      cases s <;> rfl
    | succ k ih =>
      intro s h
      cases s with
      | nil => rfl
      | cons c rest =>
        rw [scanStrip_cons_none k (h _ (List.suffix_refl _))]
        rw [ih rest (fun t ht => h t (ht.trans (List.suffix_cons c rest)))]
  intro s h
  exact key s.length s h

/-- The open-tag matcher consumes at least one character. -/
theorem openRobotAt_lt : ∀ (s r : List Char),
    openRobotAt s = some r → r.length < s.length := by
  intro s r h
  unfold openRobotAt at h
  split at h
  · exact absurd h (by simp)
  · rename_i u hu
    split at h
    · rename_i r2 hdw
      injection h with h
      subst h
      have hs := dropLit_eq hu
      have h1 : u.dropWhile (fun c => c != '>' && c != '\n') <:+ u :=
        List.dropWhile_suffix _
      have h2 := h1.length_le
      rw [hdw] at h2
      simp only [List.length_cons] at h2
      rw [hs, List.length_append]
      have : (str "<robot").length = 6 := by decide
      omega
    · exact absurd h (by simp)

/-- No `<?xml` can match anywhere in a string that contains no `?`. -/
theorem prologAt_none {t : List Char} (h : ¬ '?' ∈ t) : prologAt t = none := by
  unfold prologAt
  have hd : dropLit (str "<?xml") t = none := by
    unfold dropLit
    rw [if_neg]
    intro hp
    exact h (List.IsPrefix.subset (List.isPrefixOf_iff_prefix.mp hp) (by decide))
  rw [hd]

theorem runStrip_prolog_id {s : List Char} (h : ¬ '?' ∈ s) :
    runStrip prologAt s = s :=
  runStrip_noMatch (fun _t ht => prologAt_none (fun hc => h (ht.subset hc)))

/-! ### Claim C1 -/

/-- Claim C1: for every target and file set the matcher tries its strategies
in strict priority order — exact key, then the scheme-stripped scan (equality,
key suffixed by `/` + target, target suffixed by `/` + key), then the
filename-only fallback — returning the first strategy's result, and Not Found
only when none matches; in particular the folder-root-offset example
`{"dropped_root/robot/meshes/base.stl" ↦ F1}` with target
`package://robot/meshes/base.stl` yields F1. -/
theorem matcher_strategy_priority :
    (∀ (α : Type) (t : List Char) (fs : List (List Char × α)),
      findFileInMap t fs =
        (strat1 t fs).orElse (fun _ => (strat2 t fs).orElse (fun _ => strat3 t fs)))
    ∧ findFileInMap (str "package://robot/meshes/base.stl")
        [(str "dropped_root/robot/meshes/base.stl", (1 : Nat))] = some 1 := by
  constructor
  · intro α t fs
    unfold findFileInMap strat1 strat2 strat3
    simp only [strat2Pred]
    cases h1 : fs.find? (fun e => e.1 == t) with
    | some e => simp [Option.orElse]
    | none =>
      cases h2 : fs.find? (fun e =>
          e.1 == stripScheme t ||
          ('/' :: stripScheme t).isSuffixOf e.1 ||
          ('/' :: e.1).isSuffixOf (stripScheme t)) with
      | some e => simp [Option.orElse]
      | none =>
        by_cases h3 : (lastSeg (stripScheme t)).isEmpty
        · simp [h3, Option.orElse]
        · simp only [h3, if_false, Option.orElse]
          cases h4 : fs.find? (fun e =>
              ('/' :: lastSeg (stripScheme t)).isSuffixOf e.1 ||
              e.1 == lastSeg (stripScheme t)) with
          | some e => simp
          | none => simp
  · rfl

/-! ### Claim C8 -/

/-- Claim C8: the matcher is a total function whose misses are the ordinary
value Not Found (`none`), never an exception: the empty file set yields
`none`, a file set none of whose keys passes any strategy's test yields
`none`, and any `some` answer is a value stored in the file set. -/
theorem matcher_total_miss_is_none :
    (∀ (α : Type) (t : List Char),
      findFileInMap t ([] : List (List Char × α)) = none)
    ∧ (∀ (α : Type) (t : List Char) (fs : List (List Char × α)),
        (∀ e ∈ fs, anyStratPred t e.1 = false) → findFileInMap t fs = none)
    ∧ (∀ (α : Type) (t : List Char) (fs : List (List Char × α)) (v : α),
        findFileInMap t fs = some v → ∃ k, (k, v) ∈ fs) := by
  refine ⟨?_, ?_, ?_⟩
  · intro α t
    simp [findFileInMap]
  · intro α t fs h
    have hparts : ∀ x ∈ fs, (x.1 == t) = false ∧
        strat2Pred (stripScheme t) x.1 = false ∧
        (!(lastSeg (stripScheme t)).isEmpty &&
          (('/' :: lastSeg (stripScheme t)).isSuffixOf x.1 ||
            x.1 == lastSeg (stripScheme t))) = false := by
      intro x hx
      have hh := h x hx
      simp only [anyStratPred, Bool.or_eq_false_iff] at hh
      exact ⟨hh.1.1, hh.1.2, hh.2⟩
    have h1 : fs.find? (fun e => e.1 == t) = none :=
      List.find?_eq_none.mpr (fun x hx hc => by
        rw [(hparts x hx).1] at hc
        exact Bool.false_ne_true hc)
    have h2 : fs.find? (fun e =>
        e.1 == stripScheme t ||
        ('/' :: stripScheme t).isSuffixOf e.1 ||
        ('/' :: e.1).isSuffixOf (stripScheme t)) = none :=
      List.find?_eq_none.mpr (fun x hx hc => by
        have hc2 : strat2Pred (stripScheme t) x.1 = true := hc
        rw [(hparts x hx).2.1] at hc2
        exact Bool.false_ne_true hc2)
    by_cases hf : (lastSeg (stripScheme t)).isEmpty
    · simp [findFileInMap, h1, h2, hf]
    · have hfb : (lastSeg (stripScheme t)).isEmpty = false := by simpa using hf
      have h3 : fs.find? (fun e =>
          ('/' :: lastSeg (stripScheme t)).isSuffixOf e.1 ||
          e.1 == lastSeg (stripScheme t)) = none :=
        List.find?_eq_none.mpr (fun x hx hc => by
          have hb := (hparts x hx).2.2
          rw [hfb] at hb
          simp only [Bool.not_false, Bool.true_and] at hb
          rw [hb] at hc
          exact Bool.false_ne_true hc)
      simp [findFileInMap, h1, h2, h3, hf]
  · intro α t fs v h0
    have h : (match fs.find? (fun e => e.1 == t) with
      | some e => some e.2
      | none =>
        match fs.find? (fun e =>
            e.1 == stripScheme t ||
            ('/' :: stripScheme t).isSuffixOf e.1 ||
            ('/' :: e.1).isSuffixOf (stripScheme t)) with
        | some e => some e.2
        | none =>
          if (lastSeg (stripScheme t)).isEmpty then none
          else
            match fs.find? (fun e =>
                ('/' :: lastSeg (stripScheme t)).isSuffixOf e.1 ||
                e.1 == lastSeg (stripScheme t)) with
            | some e => some e.2
            | none => none) = some v := h0
    clear h0
    cases h1 : fs.find? (fun e => e.1 == t) with
    | some e =>
      rw [h1] at h
      have h' : some e.2 = some v := h
      injection h' with h'
      subst h'
      exact ⟨e.1, by simpa using List.mem_of_find?_eq_some h1⟩
    | none =>
      rw [h1] at h
      cases h2 : fs.find? (fun e =>
          e.1 == stripScheme t ||
          ('/' :: stripScheme t).isSuffixOf e.1 ||
          ('/' :: e.1).isSuffixOf (stripScheme t)) with
      | some e =>
        rw [h2] at h
        have h' : some e.2 = some v := h
        injection h' with h'
        subst h'
        exact ⟨e.1, by simpa using List.mem_of_find?_eq_some h2⟩
      | none =>
        rw [h2] at h
        by_cases hf : (lastSeg (stripScheme t)).isEmpty
        · have h' : (none : Option α) = some v := by
            rw [← h]
            simp [hf]
          exact absurd h' (by simp)
        · have h' : (match fs.find? (fun e =>
              ('/' :: lastSeg (stripScheme t)).isSuffixOf e.1 ||
              e.1 == lastSeg (stripScheme t)) with
              | some e => some e.2
              | none => none) = some v := by
            rw [← h]
            simp [hf]
          cases h3 : fs.find? (fun e =>
              ('/' :: lastSeg (stripScheme t)).isSuffixOf e.1 ||
              e.1 == lastSeg (stripScheme t)) with
          | some e =>
            rw [h3] at h'
            have h'' : some e.2 = some v := h'
            injection h'' with h''
            subst h''
            exact ⟨e.1, by simpa using List.mem_of_find?_eq_some h3⟩
          | none =>
            rw [h3] at h'
            exact absurd h' (by simp)

/-- Witness for C8: a concrete miss (no key matches any strategy) returns
`none`, and a concrete hit is a stored value. -/
theorem matcher_total_miss_is_none_witness :
    findFileInMap (str "package://a/b.stl") [(str "x/y.dae", (0 : Nat))] = none
    ∧ ∃ k, (k, (5 : Nat)) ∈ [(str "a", (5 : Nat))] := by
  constructor
  · exact matcher_total_miss_is_none.2.1 Nat (str "package://a/b.stl")
      [(str "x/y.dae", (0 : Nat))] (by decide)
  · exact matcher_total_miss_is_none.2.2 Nat (str "a")
      [(str "a", (5 : Nat))] 5 (by rfl)

/-! ### Claim C10 -/

/-- Claim C10: scheme normalization removes exactly one leading `package://`
or `file://` prefix and nothing else: every other target (a different scheme
such as `http://`, or a scheme occurring later in the string) is left
unchanged, so the strategy-2 scan compares against the full scheme-bearing
string — demonstrated by the `http://` example, where the match succeeds
only because the key contains the scheme text itself. -/
theorem scheme_normalization_exact :
    (∀ r : List Char, stripScheme (str "package://" ++ r) = r)
    ∧ (∀ r : List Char, stripScheme (str "file://" ++ r) = r)
    ∧ (∀ t : List Char, (str "package://").isPrefixOf t = false →
        (str "file://").isPrefixOf t = false → stripScheme t = t)
    ∧ findFileInMap (str "http://a/b.stl")
        [(str "x/http://a/b.stl", (1 : Nat))] = some 1
    ∧ stripScheme (str "package://package://x") = str "package://x" := by
  refine ⟨?_, ?_, ?_, rfl, rfl⟩
  · intro r
    unfold stripScheme
    rw [if_pos (List.isPrefixOf_iff_prefix.mpr (List.prefix_append _ _))]
    have h10 : (10 : Nat) = (str "package://").length := rfl
    rw [h10, List.drop_left]
  · intro r
    have hneg : (str "package://").isPrefixOf (str "file://" ++ r) = false := rfl
    unfold stripScheme
    rw [if_neg (by simp [hneg]),
      if_pos (List.isPrefixOf_iff_prefix.mpr (List.prefix_append _ _))]
    have h7 : (7 : Nat) = (str "file://").length := rfl
    rw [h7, List.drop_left]
  · intro t h1 h2
    unfold stripScheme
    rw [if_neg (by simp [h1]), if_neg (by simp [h2])]

/-- Witness for C10: a target with an unsupported scheme is left unchanged
by normalization. -/
theorem scheme_normalization_exact_witness :
    stripScheme (str "http://x") = str "http://x" :=
  scheme_normalization_exact.2.2.1 (str "http://x") rfl rfl

/-! ### Claim C7 -/

/-- Claim C7: on a document containing no include directives the resolver is
the identity: it returns the document unchanged (as a success). -/
theorem resolver_identity_on_directive_free :
    ∀ (n : Nat) (content wd rd : List Char) (fs : Fs),
      hasDirective content = false →
      processIncludes (n + 1) content wd rd fs = XRes.ok content := by
  intro n content wd rd fs h
  rw [processIncludes_succ]
  exact replaceIncludes_noDirective h

/-- Witness for C7: a concrete directive-free document is returned
unchanged. -/
theorem resolver_identity_on_directive_free_witness :
    processIncludes 1 (str "<robot><link/></robot>") (str "/w") (str "/p") [] =
      XRes.ok (str "<robot><link/></robot>") :=
  resolver_identity_on_directive_free 0 (str "<robot><link/></robot>")
    (str "/w") (str "/p") [] (by decide)

/-! ### Claim C6 (code bug: no cycle guard) -/

/-- Claim C6 is violated by the code: the source has no cycle or depth
guard, so a file that includes itself is followed cyclically and the
recursion never terminates. In the model: on the self-including
configuration the resolver exhausts every fuel bound, i.e. no finite
recursion depth completes the run. -/
theorem cyclic_include_never_terminates :
    ∀ n : Nat,
      processIncludes n (str "<xacro:include filename=\"a.xacro\"/>")
        (str "/pub") (str "/pub")
        [(str "/pub/a.xacro",
          FileEntry.readable (str "<xacro:include filename=\"a.xacro\"/>"))] =
      XRes.errFuel := by
  intro n
  induction n with
  | zero => rfl
  | succ n ih =>
    rw [processIncludes_succ]
    rw [replaceIncludes_match
      (show matchAt (str "<xacro:include filename=\"a.xacro\"/>") =
        some (str "<xacro:include filename=\"a.xacro\"/>", str "a.xacro", [])
        from rfl)]
    have hd : dirFun n (str "/pub") (str "/pub")
        [(str "/pub/a.xacro",
          FileEntry.readable (str "<xacro:include filename=\"a.xacro\"/>"))]
        (str "a.xacro") =
        processIncludes n (str "<xacro:include filename=\"a.xacro\"/>")
          (str "/pub") (str "/pub")
          [(str "/pub/a.xacro",
            FileEntry.readable (str "<xacro:include filename=\"a.xacro\"/>"))] :=
      rfl
    rw [hd, ih]
    rfl

/-! ### Claim C9 -/

/-- Claim C9: the resolver rewrites exactly the matched directive spans:
the directive-scan decomposition reassembles to the input (so the
non-directive characters are exactly the input text outside matched spans,
in order), and every successful output is that decomposition with each
plain character kept verbatim and only directive spans replaced. -/
theorem resolver_frame_preservation :
    ∀ (n : Nat) (content wd rd : List Char) (fs : Fs) (out : List Char),
      processIncludes (n + 1) content wd rd fs = XRes.ok out →
      joinSegs (scanSegs content) = content ∧
      out = ((scanSegs content).map (fun sg =>
        match sg with
        | Seg.lit c => [c]
        | Seg.dir _ fn => okDoc (dirFun n wd rd fs fn))).flatten := by
  intro n content wd rd fs out h
  rw [processIncludes_succ, replaceIncludes_renderSegs] at h
  exact ⟨joinSegs_scanSegs content, renderSegs_ok h⟩

/-- Witness for C9, at a document with text around one unresolvable
directive. -/
theorem resolver_frame_preservation_witness :
    joinSegs (scanSegs (str "a<xacro:include filename=\"m.xacro\"/>b")) =
      str "a<xacro:include filename=\"m.xacro\"/>b"
    ∧ str "a<!-- File not found: m.xacro -->b" =
      ((scanSegs (str "a<xacro:include filename=\"m.xacro\"/>b")).map (fun sg =>
        match sg with
        | Seg.lit c => [c]
        | Seg.dir _ fn => okDoc (dirFun 0 (str "/w") (str "/p") [] fn))).flatten :=
  resolver_frame_preservation 0 (str "a<xacro:include filename=\"m.xacro\"/>b")
    (str "/w") (str "/p") [] (str "a<!-- File not found: m.xacro -->b") (by rfl)

/-! ### Claim C4 -/

/-- Claim C4: every directive is accounted for: a resolver run renders the
directive-scan decomposition in place, where a directive whose target is
missing becomes the placeholder comment containing the original filename
verbatim (as an infix), and a directive whose target is readable becomes the
recursively resolved content; no directive is dropped. -/
theorem directives_fully_accounted :
    ∀ (n : Nat) (content wd rd : List Char) (fs : Fs),
      processIncludes (n + 1) content wd rd fs =
        renderSegs (dirFun n wd rd fs) (scanSegs content)
      ∧ (∀ fn, lookupFs fs (resolveTarget fn wd rd) = none →
          dirFun n wd rd fs fn = XRes.ok (placeholder fn) ∧
          fn <:+: placeholder fn)
      ∧ (∀ fn c2,
          lookupFs fs (resolveTarget fn wd rd) = some (FileEntry.readable c2) →
          dirFun n wd rd fs fn =
            processIncludes n (stripWrapper c2)
              (dirname (resolveTarget fn wd rd)) rd fs) := by
  intro n content wd rd fs
  refine ⟨?_, ?_, ?_⟩
  · rw [processIncludes_succ, replaceIncludes_renderSegs]
  · intro fn hl
    constructor
    · have hd : dirFun n wd rd fs fn =
          (match lookupFs fs (resolveTarget fn wd rd) with
            | some (FileEntry.readable c2) =>
              processIncludes n (stripWrapper c2)
                (dirname (resolveTarget fn wd rd)) rd fs
            | some FileEntry.unreadable => XRes.errRead (resolveTarget fn wd rd)
            | none => XRes.ok (placeholder fn)) := rfl
      rw [hd, hl]
    · exact ⟨str "<!-- File not found: ", str " -->", rfl⟩
  · intro fn c2 hl
    have hd : dirFun n wd rd fs fn =
        (match lookupFs fs (resolveTarget fn wd rd) with
          | some (FileEntry.readable c2) =>
            processIncludes n (stripWrapper c2)
              (dirname (resolveTarget fn wd rd)) rd fs
          | some FileEntry.unreadable => XRes.errRead (resolveTarget fn wd rd)
          | none => XRes.ok (placeholder fn)) := rfl
    rw [hd, hl]

/-- Witness for C4: a concrete missing-target directive resolves to its
placeholder, with the filename verbatim inside. -/
theorem directives_fully_accounted_witness :
    dirFun 0 (str "/w") (str "/p") [] (str "m.xacro") =
      XRes.ok (placeholder (str "m.xacro"))
    ∧ str "m.xacro" <:+: placeholder (str "m.xacro") :=
  (directives_fully_accounted 0 (str "") (str "/w") (str "/p") []).2.1
    (str "m.xacro") rfl

/-! ### Claim C5 (corrected: the read error aborts siblings) -/

/-- Counterexample to C5: with a first directive whose target exists but is
unreadable and a second directive whose target is readable, the whole run
returns the read error — the sibling directive's resolution is aborted, not
independent (the same sibling resolves fine on its own). -/
theorem read_error_aborts_siblings :
    processIncludes 2
      (str "<xacro:include filename=\"u.xacro\"/><xacro:include filename=\"g.xacro\"/>")
      (str "/pub") (str "/pub")
      [(str "/pub/u.xacro", FileEntry.unreadable),
       (str "/pub/g.xacro", FileEntry.readable (str "<link/>"))] =
      XRes.errRead (str "/pub/u.xacro")
    ∧ processIncludes 2 (str "<xacro:include filename=\"g.xacro\"/>")
        (str "/pub") (str "/pub")
        [(str "/pub/u.xacro", FileEntry.unreadable),
         (str "/pub/g.xacro", FileEntry.readable (str "<link/>"))] =
      XRes.ok (str "<link/>") :=
  ⟨rfl, rfl⟩

/-- Claim C5 as amended: a read failure on an existing-but-unreadable file
surfaces to the top-level caller as a distinguishable failure kind — a read
error that always names a present-but-unreadable file, distinct from the
soft missing-file placeholder — but it aborts the resolution of the whole
document, sibling directives included; per-directive independence holds only
for missing files. -/
theorem read_error_distinguishable_but_aborting :
    (∀ (n : Nat) (content wd rd : List Char) (fs : Fs) (p : List Char),
      processIncludes n content wd rd fs = XRes.errRead p →
      lookupFs fs p = some FileEntry.unreadable)
    ∧ processIncludes 2
        (str "<xacro:include filename=\"u.xacro\"/><xacro:include filename=\"g.xacro\"/>")
        (str "/pub") (str "/pub")
        [(str "/pub/u.xacro", FileEntry.unreadable),
         (str "/pub/g.xacro", FileEntry.readable (str "<link/>"))] =
        XRes.errRead (str "/pub/u.xacro") := by
  constructor
  · intro n content wd rd fs p h
    exact processIncludes_errRead n content wd rd fs h
  · rfl

/-- Witness for C5 (amended): the concrete read error names the unreadable
file. -/
theorem read_error_distinguishable_but_aborting_witness :
    lookupFs
      [(str "/pub/u.xacro", FileEntry.unreadable),
       (str "/pub/g.xacro", FileEntry.readable (str "<link/>"))]
      (str "/pub/u.xacro") = some FileEntry.unreadable :=
  read_error_distinguishable_but_aborting.1 2
    (str "<xacro:include filename=\"u.xacro\"/><xacro:include filename=\"g.xacro\"/>")
    (str "/pub") (str "/pub")
    [(str "/pub/u.xacro", FileEntry.unreadable),
     (str "/pub/g.xacro", FileEntry.readable (str "<link/>"))]
    (str "/pub/u.xacro") rfl

/-! ### Macro and directive-construction lemmas (for C3) -/

theorem containsSub_of_pre {p s : List Char} (h : p.isPrefixOf s = true) :
    containsSub p s = true := by
  cases s with
  | nil => exact h
  | cons c rest =>
    have h0 : containsSub p (c :: rest) =
        (p.isPrefixOf (c :: rest) || containsSub p rest) := rfl
    rw [h0, h, Bool.true_or]

theorem afterLastParen_eq {A rest : List Char} (h : ∀ c ∈ rest, c ≠ ')') :
    afterLastParen (A ++ ')' :: rest) = rest := by
  unfold afterLastParen
  rw [List.reverse_append, List.reverse_cons, List.append_assoc,
    List.singleton_append,
    takeWhile_pass_stop A.reverse
      (fun c hc => by
        have := h c (List.mem_reverse.mp hc)
        simp [this])
      (by rfl),
    List.reverse_reverse]

/-- The find-macro pattern matches a well-formed `$(find pkg)` occurrence at
the start, capturing the package name. -/
theorem macroAt_wf {pkg rest : List Char} (hne : pkg ≠ [])
    (hp : ∀ c ∈ pkg, c ≠ ')')
    (hh : ∀ c, pkg.head? = some c → isWsChar c = false) :
    macroAt (str "$(find " ++ pkg ++ ')' :: rest) = some pkg := by
  have hsplit : str "$(find " ++ pkg ++ ')' :: rest =
      str "$(find" ++ (' ' :: (pkg ++ ')' :: rest)) := by
    rw [show str "$(find " = str "$(find" ++ [' '] from rfl]
    simp [List.append_assoc]
  rw [hsplit]
  have ht : (' ' :: (pkg ++ ')' :: rest)).takeWhile (fun c => c != ')') =
      ' ' :: pkg := by
    rw [show (' ' :: (pkg ++ ')' :: rest)) = (' ' :: pkg) ++ ')' :: rest by simp]
    exact takeWhile_pass_stop rest
      (fun c hc => by
        rcases List.mem_cons.mp hc with h1 | h1
        · subst h1; rfl
        · have := hp c h1; simp [this])
      (by rfl)
  have hwtk : pkg.takeWhile isWsChar = [] := by
    cases pkg with
    | nil => rfl
    | cons c tl =>
      have := hh c rfl
      simp [List.takeWhile_cons, this]
  have hgne : pkg.isEmpty = false := by
    cases pkg with
    | nil => exact absurd rfl hne
    | cons c tl => rfl
  simp only [macroAt, dropLit_append, ht]
  rw [show (' ' :: pkg).length = pkg.length + 1 from by simp]
  rw [show (' ' :: (pkg ++ ')' :: rest)).drop (pkg.length + 1) =
      (pkg ++ ')' :: rest).drop pkg.length from rfl]
  rw [List.drop_left]
  simp only [List.takeWhile_cons, show isWsChar ' ' = true from rfl, if_true, hwtk]
  simp [hgne]

theorem macroSearch_head {s : List Char} {pkg : List Char}
    (h : macroAt s = some pkg) : macroSearch s = some pkg := by
  cases s with
  | nil => exact absurd h (by rw [show macroAt [] = none from rfl]; simp)
  | cons c rest =>
    show (match macroAt (c :: rest) with
      | some pkg => some pkg
      | none => macroSearch rest) = some pkg
    rw [h]

/-- The include-directive pattern matches a directive built from any
nonempty, quote-free filename, consuming it whole. -/
theorem matchAt_directive {fn : List Char} (hne : fn ≠ [])
    (hq : ∀ c ∈ fn, c ≠ '"') :
    matchAt (str "<xacro:include filename=\"" ++ fn ++ str "\"/>") =
      some (str "<xacro:include filename=\"" ++ fn ++ str "\"/>", fn, []) := by
  have hinput : str "<xacro:include filename=\"" ++ fn ++ str "\"/>" =
      str "<xacro:include" ++
        (' ' :: (str "filename=\"" ++ (fn ++ '"' :: str "/>"))) := by
    rw [show str "<xacro:include filename=\"" =
        str "<xacro:include" ++ ' ' :: str "filename=\"" from rfl,
      show str "\"/>" = '"' :: str "/>" from rfl]
    simp [List.append_assoc]
  rw [hinput]
  have hcons : str "filename=\"" ++ (fn ++ '"' :: str "/>") =
      'f' :: (str "ilename=\"" ++ (fn ++ '"' :: str "/>")) := rfl
  have hw1 : (' ' :: (str "filename=\"" ++ (fn ++ '"' :: str "/>"))).takeWhile
      isWsChar = [' '] := by
    rw [List.takeWhile_cons, show isWsChar ' ' = true from rfl, if_pos rfl, hcons,
      List.takeWhile_cons, show isWsChar 'f' = false from rfl]
    simp
  have hd1 : (' ' :: (str "filename=\"" ++ (fn ++ '"' :: str "/>"))).dropWhile
      isWsChar = str "filename=\"" ++ (fn ++ '"' :: str "/>") := by
    rw [List.dropWhile_cons, show isWsChar ' ' = true from rfl, if_pos rfl, hcons,
      List.dropWhile_cons, show isWsChar 'f' = false from rfl]
    simp
  have hfq : ∀ c ∈ fn, (c != '"') = true := fun c hc => by
    have := hq c hc
    simp [this]
  have ht2 : (fn ++ '"' :: str "/>").takeWhile (fun c => c != '"') = fn :=
    takeWhile_pass_stop (str "/>") hfq (by rfl)
  have hd2 : (fn ++ '"' :: str "/>").dropWhile (fun c => c != '"') =
      '"' :: str "/>" :=
    dropWhile_pass_stop (str "/>") hfq (by rfl)
  have hfne : fn.isEmpty = false := by
    cases fn with
    | nil => exact absurd rfl hne
    | cons c tl => rfl
  simp only [matchAt, dropLit_append, hw1, hd1, dropLit_append, ht2, hd2, hfne]
  rw [show (str "/>").takeWhile isWsChar = [] from rfl,
    show (str "/>").dropWhile isWsChar = str "/>" from rfl]
  rw [show dropLit (str "/>") (str "/>") = some [] from rfl]
  simp [List.append_assoc]

/-! ### Claim C3 -/

/-- Claim C3: the include target follows the macro/literal rule. A
well-formed macro filename `$(find PACKAGE)REST` resolves to the join of the
fixed root, the package and the rest — the working directory does not occur
in the result — while a literal filename resolves through the working
directory (for a relative one, to the normalized `workingDir/filename`); and
the recursive call on a readable include runs with the included file's own
directory as working directory and the same unchanged root. -/
theorem include_target_resolution_rules :
    (∀ (pkg rest wd rd : List Char), pkg ≠ [] → (∀ c ∈ pkg, c ≠ ')') →
      (∀ c, pkg.head? = some c → isWsChar c = false) → (∀ c ∈ rest, c ≠ ')') →
      resolveTarget (str "$(find " ++ pkg ++ ')' :: rest) wd rd =
        pathJoin3 rd pkg rest)
    ∧ (∀ (fn wd rd : List Char), containsSub (str "$(find ") fn = false →
        resolveTarget fn wd rd = pathResolve wd fn)
    ∧ (∀ (fn wd rd : List Char), containsSub (str "$(find ") fn = false →
        fn.head? ≠ some '/' →
        resolveTarget fn wd rd = normalizePath (wd ++ '/' :: fn))
    ∧ (∀ (n : Nat) (fn wd rd : List Char) (fs : Fs) (c2 : List Char),
        fn ≠ [] → (∀ c ∈ fn, c ≠ '"') →
        lookupFs fs (resolveTarget fn wd rd) = some (FileEntry.readable c2) →
        processIncludes (n + 1)
          (str "<xacro:include filename=\"" ++ fn ++ str "\"/>") wd rd fs =
        processIncludes n (stripWrapper c2)
          (dirname (resolveTarget fn wd rd)) rd fs)
    ∧ pathJoin3 (str "/pub") (str "robot") (str "/urdf/arm.xacro") =
        str "/pub/robot/urdf/arm.xacro" := by
  refine ⟨?_, ?_, ?_, ?_, rfl⟩
  · intro pkg rest wd rd hne hp hh hr
    have hpre : (str "$(find ").isPrefixOf
        (str "$(find " ++ pkg ++ ')' :: rest) = true := by
      rw [List.append_assoc]
      exact List.isPrefixOf_iff_prefix.mpr (List.prefix_append _ _)
    unfold resolveTarget
    rw [if_pos (containsSub_of_pre hpre), macroSearch_head (macroAt_wf hne hp hh)]
    show pathJoin3 rd pkg (afterLastParen (str "$(find " ++ pkg ++ ')' :: rest)) =
      pathJoin3 rd pkg rest
    rw [show str "$(find " ++ pkg ++ ')' :: rest =
        (str "$(find " ++ pkg) ++ ')' :: rest from rfl]
    rw [afterLastParen_eq hr]
  · intro fn wd rd h
    unfold resolveTarget
    rw [if_neg (by simp [h])]
  · intro fn wd rd h hhead
    unfold resolveTarget
    rw [if_neg (by simp [h])]
    unfold pathResolve
    rw [if_neg (by simp [hhead])]
  · intro n fn wd rd fs c2 hne hq hl
    rw [processIncludes_succ, replaceIncludes_match (matchAt_directive hne hq)]
    have hd : dirFun n wd rd fs fn =
        (match lookupFs fs (resolveTarget fn wd rd) with
          | some (FileEntry.readable c2) =>
            processIncludes n (stripWrapper c2)
              (dirname (resolveTarget fn wd rd)) rd fs
          | some FileEntry.unreadable => XRes.errRead (resolveTarget fn wd rd)
          | none => XRes.ok (placeholder fn)) := rfl
    rw [hd, hl]
    rw [show (match some (FileEntry.readable c2) with
        | some (FileEntry.readable c2) =>
          processIncludes n (stripWrapper c2)
            (dirname (resolveTarget fn wd rd)) rd fs
        | some FileEntry.unreadable => XRes.errRead (resolveTarget fn wd rd)
        | none => XRes.ok (placeholder fn)) =
      processIncludes n (stripWrapper c2)
        (dirname (resolveTarget fn wd rd)) rd fs from rfl]
    rw [show replaceIncludes (dirFun n wd rd fs) [] = XRes.ok [] from rfl]
    cases hres : processIncludes n (stripWrapper c2)
        (dirname (resolveTarget fn wd rd)) rd fs with
    | ok d =>
      show resBind (XRes.ok d) _ = XRes.ok d
      rw [show resBind (XRes.ok d) (fun rep =>
          resBind (XRes.ok []) (fun t => XRes.ok (rep ++ t))) =
        XRes.ok (d ++ []) from rfl]
      rw [List.append_nil]
    | errRead p => rfl
    | errFuel => rfl

/-- Witness for C3: a concrete macro filename resolves through the root
regardless of the working directory, a concrete relative literal resolves
through the working directory, and a concrete readable include recurses with
the included file's directory. -/
theorem include_target_resolution_rules_witness :
    resolveTarget (str "$(find robot)/urdf/arm.xacro") (str "/anywhere")
        (str "/pub") =
      pathJoin3 (str "/pub") (str "robot") (str "/urdf/arm.xacro")
    ∧ resolveTarget (str "a.xacro") (str "/w") (str "/pub") =
      normalizePath (str "/w" ++ '/' :: str "a.xacro")
    ∧ processIncludes 1 (str "<xacro:include filename=\"b.xacro\"/>")
        (str "/w") (str "/pub")
        [(str "/w/b.xacro", FileEntry.readable (str "<x/>"))] =
      processIncludes 0 (stripWrapper (str "<x/>"))
        (dirname (resolveTarget (str "b.xacro") (str "/w") (str "/pub")))
        (str "/pub") [(str "/w/b.xacro", FileEntry.readable (str "<x/>"))] := by
  refine ⟨?_, ?_, ?_⟩
  · have h := include_target_resolution_rules.1 (str "robot")
      (str "/urdf/arm.xacro") (str "/anywhere") (str "/pub")
      (by decide) (by decide)
      (by
        intro c hc
        have hc2 : some 'r' = some c := hc
        injection hc2 with hc3
        rw [← hc3]
        rfl)
      (by decide)
    rw [show str "$(find robot)/urdf/arm.xacro" =
        str "$(find " ++ str "robot" ++ ')' :: str "/urdf/arm.xacro" from rfl]
    exact h
  · exact include_target_resolution_rules.2.2.1 (str "a.xacro") (str "/w")
      (str "/pub") (by decide) (by decide)
  · exact include_target_resolution_rules.2.2.2.1 0 (str "b.xacro")
      (str "/w") (str "/pub")
      [(str "/w/b.xacro", FileEntry.readable (str "<x/>"))]
      (str "<x/>") (by decide) (by decide) (by rfl)

/-! ### Claim C2 (corrected: all occurrences are stripped, not only the
outermost wrapper) -/

/-- Counterexample to C2: on included content whose outermost robot element
wraps an inner robot element, the claim predicts that only the outermost
open/close pair is stripped, leaving `<robot b></robot>`; the code's global
substitutions remove the inner pair too, leaving the empty document. -/
theorem stripWrapper_not_outermost_only :
    stripWrapper (str "<robot a><robot b></robot></robot>") = []
    ∧ stripWrapper (str "<robot a><robot b></robot></robot>") ≠
        str "<robot b></robot>" :=
  ⟨by decide, by decide⟩

/-- Claim C2 as amended: before recursing, the resolver removes from the
included content every match of the three wrapper patterns — XML
declarations, `<robot ...>` open tags and `</robot>` close tags — including
occurrences that are not the outermost wrapper: a nested robot element
vanishes along with the outer one (also end-to-end through an include), and
an XML declaration in the middle of the content is removed along with the
leading one. -/
theorem stripWrapper_removes_inner_occurrences :
    (∀ a : List Char, (∀ c ∈ a, c ≠ '<' ∧ c ≠ '>' ∧ c ≠ '\n' ∧ c ≠ '?') →
      stripWrapper (str "<robot><robot " ++ a ++ str "></robot></robot>") = []
      ∧ processIncludes 2 (str "<xacro:include filename=\"inc.xacro\"/>")
          (str "/pub") (str "/pub")
          [(str "/pub/inc.xacro", FileEntry.readable
            (str "<robot><robot " ++ a ++ str "></robot></robot>"))] =
        XRes.ok [])
    ∧ stripWrapper (str "<?xml v?>\n<robot>a<?xml w?>b</robot>") = str "\nab" := by
  constructor
  · intro a ha
    have hnq : ¬ '?' ∈ (str "<robot><robot " ++ a ++ str "></robot></robot>") := by
      intro hm
      rcases List.mem_append.mp hm with hm1 | hm2
      · rcases List.mem_append.mp hm1 with hm3 | hm4
        · exact absurd hm3 (by decide)
        · exact absurd rfl (ha _ hm4).2.2.2
      · exact absurd hm2 (by decide)
    have hp1 : runStrip prologAt
        (str "<robot><robot " ++ a ++ str "></robot></robot>") =
        str "<robot><robot " ++ a ++ str "></robot></robot>" :=
      runStrip_prolog_id hnq
    have hsh1 : str "<robot><robot " ++ a ++ str "></robot></robot>" =
        str "<robot" ++
          ('>' :: (str "<robot " ++ (a ++ str "></robot></robot>"))) := by
      rw [show str "<robot><robot " = str "<robot" ++ '>' :: str "<robot " from rfl]
      simp [List.append_assoc]
    have hm1 : openRobotAt (str "<robot><robot " ++ a ++ str "></robot></robot>") =
        some (str "<robot " ++ (a ++ str "></robot></robot>")) := by
      rw [hsh1]
      simp only [openRobotAt, dropLit_append]
      rw [List.dropWhile_cons,
        show (('>' : Char) != '>' && ('>' : Char) != '\n') = false from rfl]
      simp
    have hm2 : openRobotAt (str "<robot " ++ (a ++ str "></robot></robot>")) =
        some (str "</robot></robot>") := by
      rw [show str "<robot " ++ (a ++ str "></robot></robot>") =
          str "<robot" ++ (' ' :: (a ++ str "></robot></robot>")) from by
        rw [show str "<robot " = str "<robot" ++ [' '] from rfl]
        simp [List.append_assoc]]
      simp only [openRobotAt, dropLit_append]
      have hdw : (' ' :: (a ++ str "></robot></robot>")).dropWhile
          (fun c => c != '>' && c != '\n') = '>' :: str "</robot></robot>" := by
        rw [show (' ' :: (a ++ str "></robot></robot>")) =
            (' ' :: a) ++ '>' :: str "</robot></robot>" from by
          rw [show str "></robot></robot>" = '>' :: str "</robot></robot>" from rfl]
          simp]
        exact dropWhile_pass_stop _
          (fun c hc => by
            rcases List.mem_cons.mp hc with h1 | h1
            · subst h1; rfl
            · have h2 := ha c h1
              simp [h2.2.1, h2.2.2.1])
          (by rfl)
      rw [hdw]
      rfl
    have hstrip : stripWrapper
        (str "<robot><robot " ++ a ++ str "></robot></robot>") = [] := by
      unfold stripWrapper
      rw [hp1, runStrip_match openRobotAt_lt hm1, runStrip_match openRobotAt_lt hm2]
      rfl
    refine ⟨hstrip, ?_⟩
    rw [processIncludes_succ]
    rw [replaceIncludes_match
      (show matchAt (str "<xacro:include filename=\"inc.xacro\"/>") =
        some (str "<xacro:include filename=\"inc.xacro\"/>", str "inc.xacro", [])
        from rfl)]
    have hd : dirFun 1 (str "/pub") (str "/pub")
        [(str "/pub/inc.xacro", FileEntry.readable
          (str "<robot><robot " ++ a ++ str "></robot></robot>"))]
        (str "inc.xacro") =
        processIncludes 1
          (stripWrapper (str "<robot><robot " ++ a ++ str "></robot></robot>"))
          (str "/pub") (str "/pub")
          [(str "/pub/inc.xacro", FileEntry.readable
            (str "<robot><robot " ++ a ++ str "></robot></robot>"))] := rfl
    rw [hd, hstrip]
    rfl
  · decide

/-- Witness for C2 (amended), at the concrete inner attribute text
`" name=q"`. -/
theorem stripWrapper_removes_inner_occurrences_witness :
    stripWrapper (str "<robot><robot " ++ str " name=q" ++
        str "></robot></robot>") = []
    ∧ processIncludes 2 (str "<xacro:include filename=\"inc.xacro\"/>")
        (str "/pub") (str "/pub")
        [(str "/pub/inc.xacro", FileEntry.readable
          (str "<robot><robot " ++ str " name=q" ++ str "></robot></robot>"))] =
      XRes.ok [] :=
  stripWrapper_removes_inner_occurrences.1 (str " name=q") (by decide)

end URDF
